import Mathlib

/-!
Verification of the agent discovery registry and sub-agent orchestration of
the Gemini-cli-plus repository.

The development shallowly embeds the following pieces of the source:

* `packages/core/src/services/agentManager.ts`: the frontmatter regex,
  `parseAgentFile`, `discoverAgentsInternal`, `addAgentsWithPrecedence`,
  `discoverAgents`, `getAgent`, `getAgents`, `getAllAgents`, and
  `metadataToAgentDefinition`.
* `packages/core/src/agents/sub-agent.ts`: the structured definition built
  inside `SubAgent.run`.
* `packages/cli/src/ui/commands/agentsCommand.ts`: the agent-name gate of
  `createAction`.

Filesystem and YAML effects are modelled by an explicit environment `Env` of
oracles: `statIsDir`, `globMd`, `read` model `fs.stat`, `glob('*.md', ...)`
and `fs.readFile` (with `none` standing for a thrown-and-caught error), and
`load` models the external js-yaml `yaml.load` (with `none` standing for a
throw).  JavaScript values returned by `yaml.load` are modelled by the
inductive type `Yaml` together with JavaScript truthiness and `typeof`
semantics.
-/

/-- Model of the JavaScript values that `yaml.load` can return: `nil` stands
for `null`/`undefined`, and `obj` models a plain object as an association
list (keys produced by js-yaml are unique). -/
inductive Yaml where
  | nil : Yaml
  | bool (b : Bool) : Yaml
  | num (n : Int) : Yaml
  | str (s : String) : Yaml
  | arr (xs : List Yaml) : Yaml
  | obj (fields : List (String × Yaml)) : Yaml

/-- JavaScript truthiness of a value (`!frontmatter` in the source negates
this). -/
def Yaml.truthy : Yaml → Bool
  | .nil => false
  | .bool b => b
  | .num n => !(n == 0)
  | .str s => !(s == "")
  | .arr _ => true
  | .obj _ => true

/-- JavaScript `typeof v === 'object'`: true for objects, arrays and `null`
(the `typeof null === 'object'` quirk; `undefined` is conflated into `nil`
here, which is harmless because the combined check below already rejects
falsy values). -/
def Yaml.typeofObject : Yaml → Bool
  | .nil => true
  | .bool _ => false
  | .num _ => false
  | .str _ => false
  | .arr _ => true
  | .obj _ => true

/-- The guard `frontmatter && typeof frontmatter === 'object'` from
`parseAgentFile` (the source tests its negation and returns null). -/
def jsTruthyObject (y : Yaml) : Bool := y.truthy && y.typeofObject

/-- JavaScript property access as performed by the destructuring
`const { name, description, ... } = frontmatter`: only plain objects have
the accessed string-keyed properties, everything else yields `undefined`
(modelled by `none`). -/
def Yaml.getField : Yaml → String → Option Yaml
  | .obj fields, k => fields.lookup k
  | _, _ => none

/-- The `AgentMetadata` interface of `agentManager.ts`.  Optional interface
fields are `Option`s whose `none` is the absent (`undefined`) field. -/
structure AgentMetadata where
  name : String
  description : String
  location : String
  body : String
  tools : Option (List String) := none
  model : Option String := none
  disabled : Option Bool := none
  created_by : Option String := none
deriving DecidableEq, Repr

/-- Consume a `\r?\n` at the head of the character list, per the regex
fragments of `FRONTMATTER_REGEX`. -/
def eatNewline : List Char → Option (List Char)
  | '\r' :: '\n' :: rest => some rest
  | '\n' :: rest => some rest
  | _ => none

/-- Consume the literal `---` of `FRONTMATTER_REGEX`. -/
def eatDashes : List Char → Option (List Char)
  | '-' :: '-' :: '-' :: rest => some rest
  | _ => none

/-- Consume the closing-delimiter pattern `\r?\n---\r?\n` of
`FRONTMATTER_REGEX` at the current position. -/
def matchSepFrom (cs : List Char) : Option (List Char) :=
  (eatNewline cs).bind fun afterNl => (eatDashes afterNl).bind eatNewline

/-- Lazy search of `([\s\S]*?)\r?\n---\r?\n` : split the text at the first
position where the closing delimiter matches, returning the (shortest)
group-1 text and the remainder after the delimiter. -/
def findSep : List Char → Option (List Char × List Char)
  | [] => none
  | c :: rest =>
    match matchSepFrom (c :: rest) with
    | some after => some ([], after)
    | none => (findSep rest).map (fun pr => (c :: pr.1, pr.2))

/-- `content.match(FRONTMATTER_REGEX)` for
`FRONTMATTER_REGEX = /^---\r?\n([\s\S]*?)\r?\n---\r?\n([\s\S]*)/` :
returns the pair (group 1, group 2) when the anchored regex matches. -/
def frontmatterMatch (content : String) : Option (String × String) :=
  match content.data with
  | '-' :: '-' :: '-' :: rest =>
    match eatNewline rest with
    | some afterOpen =>
      (findSep afterOpen).map (fun pr => (String.mk pr.1, String.mk pr.2))
    | none => none
  | _ => none

/-- The whitespace class trimmed by the JavaScript `String.prototype.trim`
(ASCII whitespace, line terminators, NBSP and the BOM). -/
def isJsWhitespace (c : Char) : Bool :=
  c == ' ' || c == '\t' || c == '\n' || c == '\r' || c == '\x0b' ||
    c == '\x0c' || c == '\u00A0' || c == '\uFEFF'

/-- `match[2].trim()` of `parseAgentFile`, on the character list. -/
def trimChars (cs : List Char) : List Char :=
  ((cs.dropWhile isJsWhitespace).reverse.dropWhile isJsWhitespace).reverse

/-- JavaScript `s.trim()`. -/
def jsTrim (s : String) : String := String.mk (trimChars s.data)

/-- `Array.isArray(tools) && tools.every((t) => typeof t === 'string')`
followed by the cast to `string[]`: succeeds exactly when every element is a
string. -/
def asStringList : List Yaml → Option (List String)
  | [] => some []
  | Yaml.str s :: rest => (asStringList rest).map (fun t => s :: t)
  | _ => none

/-- Field coercion `typeof x === 'string' ? x : absent`. -/
def coerceString : Option Yaml → Option String
  | some (Yaml.str s) => some s
  | _ => none

/-- Field coercion `typeof x === 'boolean' ? x : absent`. -/
def coerceBool : Option Yaml → Option Bool
  | some (Yaml.bool b) => some b
  | _ => none

/-- Field coercion for the `tools` field (string array or absent). -/
def coerceStringArray : Option Yaml → Option (List String)
  | some (Yaml.arr xs) => asStringList xs
  | _ => none

/-- The pure part of `AgentManager.parseAgentFile` operating on the file
content: regex match, `yaml.load` (through the `load` oracle, `none`
modelling a throw, which the source catches and converts to null), the
truthy-object guard, the required string `name`, and the per-field lenient
coercion of the optional fields. -/
def parseAgentContent (load : String → Option Yaml) (filePath content : String) :
    Option AgentMetadata :=
  match frontmatterMatch content with
  | none => none
  | some (fm, rest) =>
    match load fm with
    | none => none
    | some v =>
      if jsTruthyObject v then
        match v.getField "name" with
        | some (Yaml.str nm) =>
          some { name := nm
               , description := (coerceString (v.getField "description")).getD ""
               , location := filePath
               , body := jsTrim rest
               , tools := coerceStringArray (v.getField "tools")
               , model := coerceString (v.getField "model")
               , disabled := coerceBool (v.getField "disabled")
               , created_by := coerceString (v.getField "created_by") }
        | _ => none
      else none

/-- The filesystem/YAML environment a discovery pass runs against.  Each
oracle models one effectful call of the source; `none` results model thrown
errors, all of which the source catches. -/
structure Env where
  resolve : String → String
  statIsDir : String → Option Bool
  globMd : String → Option (List String)
  read : String → Option String
  load : String → Option Yaml

/-- `AgentManager.parseAgentFile`: read the file (a read error is caught and
yields null) and parse its content. -/
def parseAgentFile (env : Env) (filePath : String) : Option AgentMetadata :=
  match env.read filePath with
  | none => none
  | some content => parseAgentContent env.load filePath content

/-- `Map.set` of the JavaScript `Map` used by `addAgentsWithPrecedence`:
replace the value at an existing key in place, otherwise append. -/
def mapSet : List (String × AgentMetadata) → String → AgentMetadata →
    List (String × AgentMetadata)
  | [], k, v => [(k, v)]
  | (k', v') :: rest, k, v =>
    if k' == k then (k, v) :: rest else (k', v') :: mapSet rest k v

/-- `AgentManager.addAgentsWithPrecedence`: rebuild a name-keyed map from the
existing agents followed by the new agents (later entries overwrite), then
take the map's values. -/
def addAgentsWithPrecedence (agents newAgents : List AgentMetadata) :
    List AgentMetadata :=
  ((agents ++ newAgents).foldl (fun m a => mapSet m a.name a) []).map
    (fun q => q.2)

/-- Accumulator of one discovery pass: the `seenLocations` set, the
`discoveredAgents` list, and (as instrumentation of the I/O trace) the list
of file paths passed to `parseAgentFile`, in call order. -/
structure ScanAcc where
  seen : List String
  found : List AgentMetadata
  attempts : List String
deriving DecidableEq, Repr

/-- The inner file loop of `AgentManager.discoverAgentsInternal`: skip
already-seen locations, otherwise parse; on success record the agent and
mark the location seen. -/
def scanFiles (env : Env) : ScanAcc → List String → ScanAcc
  | acc, [] => acc
  | acc, f :: fs =>
    if acc.seen.contains f then scanFiles env acc fs
    else
      match parseAgentFile env f with
      | some md =>
        scanFiles env
          { seen := f :: acc.seen
          , found := acc.found ++ [md]
          , attempts := acc.attempts ++ [f] } fs
      | none => scanFiles env { acc with attempts := acc.attempts ++ [f] } fs

/-- The outer directory loop of `AgentManager.discoverAgentsInternal`:
resolve the search path, skip it unless `stat` reports a directory, list
`*.md` files (a glob error skips the directory via the catch), and scan the
files. -/
def scanDirs (env : Env) : ScanAcc → List String → ScanAcc
  | acc, [] => acc
  | acc, d :: ds =>
    match env.statIsDir (env.resolve d) with
    | some true =>
      match env.globMd (env.resolve d) with
      | some files => scanDirs env (scanFiles env acc files) ds
      | none => scanDirs env acc ds
    | _ => scanDirs env acc ds

/-- `AgentManager.discoverAgentsInternal` run against the current agents
(whose locations seed `seenLocations`). -/
def runDiscovery (env : Env) (agents : List AgentMetadata) (paths : List String) :
    ScanAcc :=
  scanDirs env { seen := agents.map (fun m => m.location), found := [], attempts := [] }
    paths

/-- The list of agents returned by `discoverAgentsInternal`. -/
def discoverAgentsInternal (env : Env) (agents : List AgentMetadata)
    (paths : List String) : List AgentMetadata :=
  (runDiscovery env agents paths).found

/-- The user-tier result of `discoverAgents`: the internal discovery runs
right after `clearAgents`, so `seenLocations` starts empty. -/
def userAgentsOf (env : Env) (userDir : String) : List AgentMetadata :=
  discoverAgentsInternal env [] [userDir]

/-- The registry value after the user-tier merge inside `discoverAgents`. -/
def registryAfterUser (env : Env) (userDir : String) : List AgentMetadata :=
  addAgentsWithPrecedence [] (userAgentsOf env userDir)

/-- The project-tier result of `discoverAgents`: `seenLocations` is seeded
with the locations of the registry as left by the user-tier merge. -/
def projectAgentsOf (env : Env) (userDir projectDir : String) :
    List AgentMetadata :=
  discoverAgentsInternal env (registryAfterUser env userDir) [projectDir]

/-- `AgentManager.discoverAgents` as a function from the prior registry state
to the new one.  The prior state is dead: the method clears `this.agents`
before anything reads it. -/
def discoverAgentsMethod (env : Env) (userDir projectDir : String)
    (_prior : List AgentMetadata) : List AgentMetadata :=
  addAgentsWithPrecedence (registryAfterUser env userDir)
    (projectAgentsOf env userDir projectDir)

/-- The successive values of `this.agents` during one `discoverAgents` call:
before the call, after `clearAgents`, after the user-tier merge, and after
the project-tier merge.  The first three are observable by a `getAllAgents`
reader scheduled at a suspension point of the call. -/
def discoverAgentsStates (env : Env) (userDir projectDir : String)
    (prior : List AgentMetadata) : List (List AgentMetadata) :=
  [prior, [], registryAfterUser env userDir,
    discoverAgentsMethod env userDir projectDir prior]

/-- The file paths passed to `parseAgentFile` over a whole `discoverAgents`
call, in call order. -/
def discoverParseAttempts (env : Env) (userDir projectDir : String) :
    List String :=
  (runDiscovery env [] [userDir]).attempts ++
    (runDiscovery env (registryAfterUser env userDir) [projectDir]).attempts

/-- `AgentManager.getAgent` (lookup by name, first match, null for a miss). -/
def getAgent (agents : List AgentMetadata) (nm : String) : Option AgentMetadata :=
  agents.find? (fun s => s.name == nm)

/-- `AgentManager.getAgents` (enabled agents only; an absent `disabled`
field counts as enabled). -/
def getAgents (agents : List AgentMetadata) : List AgentMetadata :=
  agents.filter (fun s => !(s.disabled.getD false))

/-- `AgentManager.getAllAgents`. -/
def getAllAgents (agents : List AgentMetadata) : List AgentMetadata := agents

/-- One declared input of a structured agent definition. -/
structure InputSpec where
  description : String
  type : String
  required : Bool
deriving DecidableEq, Repr

/-- The `promptConfig` record of a structured agent definition. -/
structure PromptConfig where
  systemPrompt : String
  query : String
deriving DecidableEq, Repr

/-- The `modelConfig` record of a structured agent definition. -/
structure ModelConfig where
  model : String
  temp : ℚ
  top_p : ℚ
deriving DecidableEq, Repr

/-- The `runConfig` record of a structured agent definition. -/
structure RunConfig where
  max_time_minutes : ℕ
  max_turns : ℕ
deriving DecidableEq, Repr

/-- The `LocalAgentDefinition` shape built from metadata, with `toolConfig`
as an optional tool list (`none` models the absent `toolConfig`). -/
structure LocalAgentDefinition where
  kind : String
  name : String
  description : String
  inputConfig : List (String × InputSpec)
  promptConfig : PromptConfig
  modelConfig : ModelConfig
  runConfig : RunConfig
  toolConfig : Option (List String)
deriving DecidableEq, Repr

/-- The `defaultTools` list of `SubAgent.run`. -/
def defaultTools : List String :=
  ["read_file", "write_file", "run_shell_command", "list_directory",
    "search_file_content"]

/-- The structured definition built inside `SubAgent.run` from the wrapped
metadata (the tool list falls back to `defaultTools` only when
`metadata.tools` is undefined; an empty array is truthy in JavaScript). -/
def buildSubAgentDefinition (metadata : AgentMetadata) : LocalAgentDefinition :=
  { kind := "local"
  , name := metadata.name
  , description := metadata.description
  , inputConfig :=
      [("task", { description := "The task to perform", type := "string"
                , required := true })]
  , promptConfig := { systemPrompt := metadata.body, query := "${task}" }
  , modelConfig := { model := metadata.model.getD "inherit", temp := 7/10
                   , top_p := 19/20 }
  , runConfig := { max_time_minutes := 5, max_turns := 30 }
  , toolConfig :=
      some (match metadata.tools with
            | some ts => ts
            | none => defaultTools) }

/-- `AgentManager.metadataToAgentDefinition` (static converter; note the
absent `toolConfig` when `metadata.tools` is undefined, and the different
turn limit). -/
def metadataToAgentDefinition (metadata : AgentMetadata) : LocalAgentDefinition :=
  { kind := "local"
  , name := metadata.name
  , description := metadata.description
  , inputConfig :=
      [("task", { description := "The task to perform", type := "string"
                , required := true })]
  , promptConfig := { systemPrompt := metadata.body, query := "${task}" }
  , modelConfig := { model := metadata.model.getD "inherit", temp := 7/10
                   , top_p := 19/20 }
  , runConfig := { max_time_minutes := 5, max_turns := 20 }
  , toolConfig := metadata.tools }

/-- Character class `[a-zA-Z0-9_-]` of the `createAction` name gate. -/
def nameCharOk (c : Char) : Bool :=
  (('a' ≤ c && c ≤ 'z') || ('A' ≤ c && c ≤ 'Z') || ('0' ≤ c && c ≤ '9')
    || c == '_' || c == '-')

/-- The `createAction` gate `/^[a-zA-Z0-9_-]+$/.test(name)` from
`agentsCommand.ts`. -/
def isValidAgentName (s : String) : Bool :=
  !s.data.isEmpty && s.data.all nameCharOk

/-! ### Helper lemmas about the precedence map and the scan loop -/

/-- Lookup in the association list backing the precedence `Map`. -/
def mapGet (m : List (String × AgentMetadata)) (n : String) :
    Option AgentMetadata :=
  (m.find? (fun q => q.1 == n)).map (fun q => q.2)

theorem mapGet_cons (a : String) (b : AgentMetadata)
    (l : List (String × AgentMetadata)) (n : String) :
    mapGet ((a, b) :: l) n = if a == n then some b else mapGet l n := by
  simp only [mapGet, List.find?]
  cases h : a == n <;> simp [h]


theorem str_beq_comm (a b : String) : (a == b) = (b == a) := by
  by_cases h : a = b
  · subst h; rfl
  · rw [beq_eq_false_iff_ne.mpr h, beq_eq_false_iff_ne.mpr (Ne.symm h)]

theorem mapGet_mapSet (m : List (String × AgentMetadata)) (k : String)
    (v : AgentMetadata) (n : String) :
    mapGet (mapSet m k v) n = if n == k then some v else mapGet m n := by
  induction m with
  | nil =>
    rw [show mapSet [] k v = [(k, v)] from rfl, mapGet_cons, str_beq_comm k n]
  | cons q rest ih =>
    obtain ⟨k2, v2⟩ := q
    by_cases hk : k2 = k
    · subst hk
      rw [show mapSet ((k2, v2) :: rest) k2 v = (k2, v) :: rest from by
          simp [mapSet],
        mapGet_cons, mapGet_cons, str_beq_comm k2 n]
      by_cases h2 : n = k2
      · simp [h2]
      · simp [beq_eq_false_iff_ne.mpr h2]
    · rw [show mapSet ((k2, v2) :: rest) k v = (k2, v2) :: mapSet rest k v from by
          simp [mapSet, beq_eq_false_iff_ne.mpr hk],
        mapGet_cons, mapGet_cons, ih]
      by_cases h2 : k2 = n
      · subst h2
        simp [hk]
      · have h2f : (k2 == n) = false := beq_eq_false_iff_ne.mpr h2
        simp [h2f]

theorem mapGet_foldl (xs : List AgentMetadata)
    (m0 : List (String × AgentMetadata)) (n : String) :
    mapGet (xs.foldl (fun m a => mapSet m a.name a) m0) n =
      (xs.reverse.find? (fun a => a.name == n)).or (mapGet m0 n) := by
  induction xs generalizing m0 with
  | nil => rfl
  | cons a t ih =>
    rw [List.foldl_cons, ih, mapGet_mapSet, List.reverse_cons, List.find?_append]
    cases hf : t.reverse.find? (fun x => x.name == n) with
    | some b => simp [Option.or]
    | none =>
      by_cases h : n = a.name
      · subst h; simp [Option.or, List.find?]
      · simp [Option.or, List.find?, beq_eq_false_iff_ne.mpr h,
          beq_eq_false_iff_ne.mpr (Ne.symm h)]

theorem mem_mapSet {m : List (String × AgentMetadata)} {k : String}
    {v : AgentMetadata} {q : String × AgentMetadata}
    (hq : q ∈ mapSet m k v) : q ∈ m ∨ q = (k, v) := by
  induction m with
  | nil =>
    right
    simpa [mapSet] using hq
  | cons p rest ih =>
    obtain ⟨k2, v2⟩ := p
    by_cases hk : k2 = k
    · subst hk
      rw [show mapSet ((k2, v2) :: rest) k2 v = (k2, v) :: rest from by
          simp [mapSet]] at hq
      rcases List.mem_cons.mp hq with h | h
      · right; simpa using h
      · left; exact List.mem_cons_of_mem _ h
    · rw [show mapSet ((k2, v2) :: rest) k v = (k2, v2) :: mapSet rest k v from by
          simp [mapSet, beq_eq_false_iff_ne.mpr hk]] at hq
      rcases List.mem_cons.mp hq with h | h
      · left; rw [h]; exact List.mem_cons_self _ _
      · rcases ih h with h2 | h2
        · left; exact List.mem_cons_of_mem _ h2
        · right; exact h2

theorem pairs_name_key (xs : List AgentMetadata)
    (m0 : List (String × AgentMetadata))
    (h0 : ∀ q ∈ m0, (q.2).name = q.1) :
    ∀ q ∈ xs.foldl (fun m a => mapSet m a.name a) m0, (q.2).name = q.1 := by
  induction xs generalizing m0 with
  | nil => exact h0
  | cons a t ih =>
    intro q hq
    refine ih (mapSet m0 a.name a) ?_ q hq
    intro p hp
    rcases mem_mapSet hp with h | h
    · exact h0 p h
    · subst h; rfl

theorem find_values (m : List (String × AgentMetadata)) (n : String)
    (hkey : ∀ q ∈ m, (q.2).name = q.1) :
    (m.map (fun q => q.2)).find? (fun a => a.name == n) = mapGet m n := by
  induction m with
  | nil => simp [mapGet]
  | cons q rest ih =>
    obtain ⟨k2, v2⟩ := q
    have hv : v2.name = k2 := hkey (k2, v2) (List.mem_cons_self _ _)
    have ih2 := ih (fun p hp => hkey p (List.mem_cons_of_mem _ hp))
    rw [List.map_cons, mapGet_cons]
    by_cases h : k2 = n
    · subst h
      simp [List.find?, hv]
    · simp [List.find?, hv, beq_eq_false_iff_ne.mpr h, ih2]

/-- `getAgent` after a precedence merge finds the last entry with the given
name in the concatenated input, mirroring that later `Map.set` calls win. -/
theorem getAgent_addPrec (old newAgents : List AgentMetadata) (n : String) :
    getAgent (addAgentsWithPrecedence old newAgents) n =
      ((old ++ newAgents).reverse).find? (fun a => a.name == n) := by
  unfold getAgent addAgentsWithPrecedence
  rw [find_values _ _ (pairs_name_key _ [] (by simp))]
  rw [mapGet_foldl]
  cases hf : ((old ++ newAgents).reverse).find? (fun a => a.name == n) <;>
    simp [hf, Option.or, mapGet]

theorem mapSet_of_not_mem_keys (m : List (String × AgentMetadata)) (k : String)
    (v : AgentMetadata) (h : ∀ q ∈ m, q.1 ≠ k) :
    mapSet m k v = m ++ [(k, v)] := by
  induction m with
  | nil => rfl
  | cons p rest ih =>
    obtain ⟨k2, v2⟩ := p
    have hk : k2 ≠ k := h (k2, v2) (List.mem_cons_self _ _)
    rw [show mapSet ((k2, v2) :: rest) k v = (k2, v2) :: mapSet rest k v from by
        simp [mapSet, beq_eq_false_iff_ne.mpr hk]]
    rw [ih (fun q hq => h q (List.mem_cons_of_mem _ hq))]
    simp

theorem foldl_mapSet_nodup (xs : List AgentMetadata)
    (m0 : List (String × AgentMetadata))
    (hdisj : ∀ a ∈ xs, ∀ q ∈ m0, q.1 ≠ a.name)
    (hnodup : (xs.map (fun a => a.name)).Nodup) :
    xs.foldl (fun m a => mapSet m a.name a) m0 =
      m0 ++ xs.map (fun a => (a.name, a)) := by
  induction xs generalizing m0 with
  | nil => simp
  | cons a t ih =>
    rw [List.map_cons, List.nodup_cons] at hnodup
    rw [List.foldl_cons,
      mapSet_of_not_mem_keys _ _ _ (hdisj a (List.mem_cons_self _ _))]
    rw [ih (m0 ++ [(a.name, a)]) ?_ hnodup.2]
    · simp
    · intro b hb q hq
      rcases List.mem_append.mp hq with hq2 | hq2
      · exact hdisj b (List.mem_cons_of_mem _ hb) q hq2
      · have hq3 : q = (a.name, a) := by simpa using hq2
        rw [hq3]
        intro e
        have e2 : a.name = b.name := e
        exact hnodup.1 (by rw [e2]; exact List.mem_map_of_mem (fun x => x.name) hb)

/-- Re-merging a registry whose names are already unique is the identity:
`addAgentsWithPrecedence r []` rebuilds the same list. -/
theorem addPrec_nil_of_nodup (r : List AgentMetadata)
    (h : (r.map (fun a => a.name)).Nodup) :
    addAgentsWithPrecedence r [] = r := by
  unfold addAgentsWithPrecedence
  rw [List.append_nil, foldl_mapSet_nodup r [] (by simp) h]
  rw [List.nil_append, List.map_map]
  exact (List.map_congr_left (fun a _ => rfl)).trans (List.map_id r)

theorem keys_mapSet_nodup (m : List (String × AgentMetadata)) (k : String)
    (v : AgentMetadata) (h : (m.map (fun q => q.1)).Nodup) :
    ((mapSet m k v).map (fun q => q.1)).Nodup := by
  induction m with
  | nil => simp [mapSet]
  | cons p rest ih =>
    obtain ⟨k2, v2⟩ := p
    by_cases hk : k2 = k
    · subst hk
      rw [show mapSet ((k2, v2) :: rest) k2 v = (k2, v) :: rest from by
          simp [mapSet]]
      simpa using h
    · rw [show mapSet ((k2, v2) :: rest) k v = (k2, v2) :: mapSet rest k v from by
          simp [mapSet, beq_eq_false_iff_ne.mpr hk]]
      rw [List.map_cons, List.nodup_cons] at h ⊢
      refine ⟨?_, ih h.2⟩
      intro hmem
      rcases List.mem_map.mp hmem with ⟨q, hq, hq1⟩
      rcases mem_mapSet hq with hh | hh
      · exact h.1 (hq1 ▸ List.mem_map_of_mem (fun q => q.1) hh)
      · rw [hh] at hq1
        exact hk hq1.symm

theorem keys_foldl_nodup (xs : List AgentMetadata)
    (m0 : List (String × AgentMetadata)) (h : (m0.map (fun q => q.1)).Nodup) :
    ((xs.foldl (fun m a => mapSet m a.name a) m0).map (fun q => q.1)).Nodup := by
  induction xs generalizing m0 with
  | nil => exact h
  | cons a t ih => exact ih _ (keys_mapSet_nodup _ _ _ h)

/-- The merged registry never holds two entries with the same name. -/
theorem addPrec_names_nodup (old newAgents : List AgentMetadata) :
    ((addAgentsWithPrecedence old newAgents).map (fun a => a.name)).Nodup := by
  unfold addAgentsWithPrecedence
  have hk := keys_foldl_nodup (old ++ newAgents) [] (by simp)
  have hp := pairs_name_key (old ++ newAgents) [] (by simp)
  have heq : ((List.foldl (fun m a => mapSet m a.name a) [] (old ++ newAgents)).map
        (fun q => q.2)).map (fun a => a.name) =
      (List.foldl (fun m a => mapSet m a.name a) [] (old ++ newAgents)).map
        (fun q => q.1) := by
    rw [List.map_map]
    exact List.map_congr_left (fun q hq => hp q hq)
  rw [heq]
  exact hk

theorem find_of_filter_singleton {l : List AgentMetadata}
    {p : AgentMetadata → Bool} {a : AgentMetadata} (h : l.filter p = [a]) :
    l.reverse.find? p = some a := by
  rw [← List.filter_head?, List.filter_reverse, h]
  rfl

/-- A successfully parsed file's metadata records exactly that file's path as
its `location`. -/
theorem parseAgentContent_location {load : String → Option Yaml}
    {fp content : String} {m : AgentMetadata}
    (h : parseAgentContent load fp content = some m) : m.location = fp := by
  unfold parseAgentContent at h
  cases hm : frontmatterMatch content with
  | none => simp [hm] at h
  | some pr =>
    obtain ⟨fm, rest⟩ := pr
    simp only [hm] at h
    cases hl : load fm with
    | none => simp [hl] at h
    | some v =>
      simp only [hl] at h
      by_cases ho : jsTruthyObject v
      · rw [if_pos ho] at h
        cases hn : v.getField "name" with
        | none => simp [hn] at h
        | some y =>
          simp only [hn] at h
          cases y with
          | str nm => rw [← Option.some.inj h]
          | nil => simp at h
          | bool b => simp at h
          | num k => simp at h
          | arr xs => simp at h
          | obj fs => simp at h
      · rw [if_neg ho] at h
        exact absurd h (by simp)

theorem parseAgentFile_location {env : Env} {f : String} {m : AgentMetadata}
    (h : parseAgentFile env f = some m) : m.location = f := by
  unfold parseAgentFile at h
  cases hr : env.read f with
  | none => rw [hr] at h; exact absurd h (by simp)
  | some content => rw [hr] at h; exact parseAgentContent_location h

/-- Invariant of the scan accumulator: discovered locations are distinct and
all of them have been marked seen. -/
def ScanInv (acc : ScanAcc) : Prop :=
  (acc.found.map (fun m => m.location)).Nodup ∧
    ∀ m ∈ acc.found, m.location ∈ acc.seen

theorem scanFiles_inv (env : Env) (files : List String) (acc : ScanAcc)
    (h : ScanInv acc) : ScanInv (scanFiles env acc files) := by
  induction files generalizing acc with
  | nil => simpa [scanFiles] using h
  | cons f fs ih =>
    rw [scanFiles]
    by_cases hseen : acc.seen.contains f
    · rw [if_pos hseen]; exact ih acc h
    · rw [if_neg hseen]
      have hf : f ∉ acc.seen := by
        intro hmem
        exact hseen (by
          have : acc.seen.elem f = true := List.elem_iff.mpr hmem
          simpa [List.contains] using this)
      cases hp : parseAgentFile env f with
      | none => exact ih _ ⟨h.1, h.2⟩
      | some md =>
        refine ih _ ⟨?_, ?_⟩
        · rw [List.map_append]
          refine List.nodup_append.mpr ⟨h.1, List.nodup_singleton _, ?_⟩
          intro x hx hx2
          have hx3 : x = md.location := by simpa using hx2
          rcases List.mem_map.mp hx with ⟨y, hy, hyloc⟩
          apply hf
          rw [← parseAgentFile_location hp, ← hx3, ← hyloc]
          exact h.2 y hy
        · intro m hm
          rcases List.mem_append.mp hm with hmem | hmem
          · exact List.mem_cons_of_mem _ (h.2 m hmem)
          · have : m = md := by simpa using hmem
            rw [this, parseAgentFile_location hp]
            exact List.mem_cons_self _ _

theorem scanDirs_inv (env : Env) (ds : List String) (acc : ScanAcc)
    (h : ScanInv acc) : ScanInv (scanDirs env acc ds) := by
  induction ds generalizing acc with
  | nil => simpa [scanDirs] using h
  | cons d rest ih =>
    cases hs : env.statIsDir (env.resolve d) with
    | none => simp only [scanDirs, hs]; exact ih acc h
    | some b =>
      cases b with
      | false => simp only [scanDirs, hs]; exact ih acc h
      | true =>
        cases hg : env.globMd (env.resolve d) with
        | none => simp only [scanDirs, hs, hg]; exact ih acc h
        | some files =>
          simp only [scanDirs, hs, hg]
          exact ih _ (scanFiles_inv env files acc h)

/-! ### Claim theorems -/

/-- C1: after a completed discover() over both tiers, for every name that
appears in valid definition files of both the user tier and the project
tier, the registry entry returned for that name has exactly the fields
parsed from the project-tier file, never the user-tier file, regardless of
discovery order within a tier. -/
theorem project_tier_precedence (env : Env) (userDir projectDir : String)
    (prior : List AgentMetadata) (n : String) (mp : AgentMetadata)
    (_huser : ∃ mu ∈ userAgentsOf env userDir, mu.name = n)
    (hproj : (projectAgentsOf env userDir projectDir).filter
      (fun a => a.name == n) = [mp]) :
    getAgent (discoverAgentsMethod env userDir projectDir prior) n = some mp := by
  unfold discoverAgentsMethod
  rw [getAgent_addPrec, List.reverse_append, List.find?_append,
    find_of_filter_singleton hproj]
  rfl

def envC1 : Env :=
  { resolve := fun s => s
  , statIsDir := fun d =>
      if d == "/user/agents" || d == "/project/agents" then some true else none
  , globMd := fun d =>
      if d == "/user/agents" then some ["/user/agents/grader.md"]
      else if d == "/project/agents" then some ["/project/agents/grader.md"]
      else some []
  , read := fun f =>
      if f == "/user/agents/grader.md" then
        some "---\nname: grader\ndescription: A user agent\n---\nUser body"
      else if f == "/project/agents/grader.md" then
        some "---\nname: grader\ndescription: A project agent\n---\nProject body"
      else none
  , load := fun s =>
      if s == "name: grader\ndescription: A user agent" then
        some (Yaml.obj
          [("name", Yaml.str "grader"), ("description", Yaml.str "A user agent")])
      else if s == "name: grader\ndescription: A project agent" then
        some (Yaml.obj
          [("name", Yaml.str "grader"), ("description", Yaml.str "A project agent")])
      else none }

def graderProject : AgentMetadata :=
  { name := "grader", description := "A project agent"
  , location := "/project/agents/grader.md", body := "Project body" }

def graderUser : AgentMetadata :=
  { name := "grader", description := "A user agent"
  , location := "/user/agents/grader.md", body := "User body" }

/-- Witness for C1: the spec's example scenario, with `grader.md` in both
tiers; the resolved entry carries the project tier's fields. -/
theorem project_tier_precedence_witness :
    getAgent (discoverAgentsMethod envC1 "/user/agents" "/project/agents" [])
      "grader" = some graderProject := by
  apply project_tier_precedence
  · exact ⟨graderUser, by decide, rfl⟩
  · decide

/-- C9: calling discover() twice against an unchanged filesystem yields a
registry equal to the registry produced by a single call (the prior registry
state is dead: it is cleared before anything reads it). -/
theorem discovery_idempotent (env : Env) (userDir projectDir : String)
    (prior : List AgentMetadata) :
    discoverAgentsMethod env userDir projectDir
        (discoverAgentsMethod env userDir projectDir prior) =
      discoverAgentsMethod env userDir projectDir prior := rfl

/-- C7 counterexample: the two builders of structured definitions do not use
the same turn limit: the registry's converter caps at 20 turns while the
orchestrator's run() caps at 30, so the claim that the bounds are identical
across all places fails. -/
def mBounds : AgentMetadata :=
  { name := "a", description := "", location := "/a.md", body := "" }

/-- C7 counterexample statement (see the doc comment above). -/
theorem run_bounds_counterexample :
    (metadataToAgentDefinition mBounds).runConfig.max_turns = 20 ∧
      (buildSubAgentDefinition mBounds).runConfig.max_turns = 30 ∧
      (20 : ℕ) ≠ 30 := ⟨rfl, rfl, by decide⟩

/-- C7 amended: every structured definition carries fixed resource bounds
independent of the metadata; both builders use a 5-minute wall-clock budget,
but the turn limit is 20 in `metadataToAgentDefinition` and 30 in
`SubAgent.run`. -/
theorem fixed_resource_bounds (m : AgentMetadata) :
    (metadataToAgentDefinition m).runConfig =
        { max_time_minutes := 5, max_turns := 20 } ∧
      (buildSubAgentDefinition m).runConfig =
        { max_time_minutes := 5, max_turns := 30 } := ⟨rfl, rfl⟩

/-- C6: the structured definition built by the orchestrator's run() has a
tool allow-list equal to the entry's tools list when present, and otherwise
the default action-oriented set (file read, file write, shell command
execution, directory listing, content search). -/
theorem run_tool_allowlist (m : AgentMetadata) :
    (∀ ts, m.tools = some ts →
        (buildSubAgentDefinition m).toolConfig = some ts) ∧
      (m.tools = none →
        (buildSubAgentDefinition m).toolConfig = some defaultTools) ∧
      defaultTools = ["read_file", "write_file", "run_shell_command",
        "list_directory", "search_file_content"] := by
  refine ⟨?_, ?_, rfl⟩
  · intro ts hts
    simp [buildSubAgentDefinition, hts]
  · intro h
    simp [buildSubAgentDefinition, h]

def mWithTools : AgentMetadata :=
  { name := "a", description := "", location := "/a.md", body := ""
  , tools := some ["grep"] }

def mNoTools : AgentMetadata :=
  { name := "b", description := "", location := "/b.md", body := "" }

/-- Witness for C6: a concrete entry with an explicit tools list keeps it,
and one without gets the default set. -/
theorem run_tool_allowlist_witness :
    (buildSubAgentDefinition mWithTools).toolConfig = some ["grep"] ∧
      (buildSubAgentDefinition mNoTools).toolConfig = some defaultTools :=
  ⟨(run_tool_allowlist _).1 ["grep"] rfl, (run_tool_allowlist _).2.1 rfl⟩

/-- C10: a definition file declaring `tools: []` parses to a metadata record
with an empty tools list, and the orchestrator then builds a definition with
an empty allow-list; the default set is substituted only when the tools
field is entirely absent. -/
theorem empty_tools_empty_allowlist (load : String → Option Yaml)
    (filePath content fm rest nm : String) (v : Yaml)
    (hm : frontmatterMatch content = some (fm, rest))
    (hl : load fm = some v)
    (ho : jsTruthyObject v = true)
    (hn : v.getField "name" = some (Yaml.str nm))
    (ht : v.getField "tools" = some (Yaml.arr [])) :
    ∃ m, parseAgentContent load filePath content = some m ∧
      m.tools = some [] ∧
      (buildSubAgentDefinition m).toolConfig = some [] ∧
      ∀ m2 : AgentMetadata, m2.tools = none →
        (buildSubAgentDefinition m2).toolConfig = some defaultTools := by
  refine ⟨{ name := nm,
            description := (coerceString (v.getField "description")).getD "",
            location := filePath,
            body := jsTrim rest,
            tools := coerceStringArray (v.getField "tools"),
            model := coerceString (v.getField "model"),
            disabled := coerceBool (v.getField "disabled"),
            created_by := coerceString (v.getField "created_by") },
    ?_, ?_, ?_, ?_⟩
  · unfold parseAgentContent
    simp only [hm, hl, ho, if_true, hn]
  · simp [ht, coerceStringArray, asStringList]
  · simp [buildSubAgentDefinition, ht, coerceStringArray, asStringList]
  · intro m2 h2
    simp [buildSubAgentDefinition, h2]

/-- Witness for C10: a concrete document with `tools: []`. -/
theorem empty_tools_empty_allowlist_witness :
    ∃ m, parseAgentContent
        (fun s => if s == "name: e\ntools: []" then
          some (Yaml.obj [("name", Yaml.str "e"), ("tools", Yaml.arr [])])
          else none)
        "/e.md" "---\nname: e\ntools: []\n---\nB" = some m ∧
      m.tools = some [] ∧
      (buildSubAgentDefinition m).toolConfig = some [] ∧
      ∀ m2 : AgentMetadata, m2.tools = none →
        (buildSubAgentDefinition m2).toolConfig = some defaultTools := by
  exact empty_tools_empty_allowlist _ "/e.md" "---\nname: e\ntools: []\n---\nB"
    "name: e\ntools: []" "B" "e"
    (Yaml.obj [("name", Yaml.str "e"), ("tools", Yaml.arr [])])
    rfl rfl rfl rfl rfl

/-- C4: parsing a raw definition text returns no metadata exactly when the
delimiter pair is absent, when the metadata block does not load as a truthy
object (a throw, a scalar, or null), or when the name field is absent or not
a string; every input with delimiters, a loaded truthy object and a string
name yields a metadata record. -/
theorem parse_rejection_conditions (load : String → Option Yaml)
    (filePath content : String) :
    (parseAgentContent load filePath content).isNone = true ↔
      (frontmatterMatch content = none ∨
        ∃ fm rest, frontmatterMatch content = some (fm, rest) ∧
          (load fm = none ∨ ∃ v, load fm = some v ∧
            (jsTruthyObject v = false ∨
              coerceString (v.getField "name") = none))) := by
  unfold parseAgentContent
  cases hm : frontmatterMatch content with
  | none => simp
  | some pr =>
    obtain ⟨fm, rest⟩ := pr
    cases hl : load fm with
    | none => simp [hm, hl]
    | some v =>
      by_cases ho : jsTruthyObject v
      · cases hn : v.getField "name" with
        | none => simp [hm, hl, hn, ho, coerceString]
        | some y =>
          cases y with
          | str nm => simp [hm, hl, hn, ho, coerceString]
          | nil => simp [hm, hl, hn, ho, coerceString]
          | bool b => simp [hm, hl, hn, ho, coerceString]
          | num k => simp [hm, hl, hn, ho, coerceString]
          | arr xs => simp [hm, hl, hn, ho, coerceString]
          | obj fs => simp [hm, hl, hn, ho, coerceString]
      · rw [Bool.not_eq_true] at ho
        simp [hm, hl, ho]

/-- C5: for every document that parses successfully, each optional field
present with the wrong shape is silently dropped from the metadata record,
and its presence never rejects the whole document. -/
theorem lenient_field_coercion (load : String → Option Yaml)
    (filePath content fm rest nm : String) (v : Yaml)
    (hm : frontmatterMatch content = some (fm, rest))
    (hl : load fm = some v)
    (ho : jsTruthyObject v = true)
    (hn : v.getField "name" = some (Yaml.str nm)) :
    ∃ m, parseAgentContent load filePath content = some m ∧
      ((v.getField "description").isSome = true →
        coerceString (v.getField "description") = none → m.description = "") ∧
      ((v.getField "tools").isSome = true →
        coerceStringArray (v.getField "tools") = none → m.tools = none) ∧
      ((v.getField "model").isSome = true →
        coerceString (v.getField "model") = none → m.model = none) ∧
      ((v.getField "disabled").isSome = true →
        coerceBool (v.getField "disabled") = none → m.disabled = none) ∧
      ((v.getField "created_by").isSome = true →
        coerceString (v.getField "created_by") = none → m.created_by = none) := by
  unfold parseAgentContent
  simp only [hm, hl, hn]
  rw [if_pos ho]
  refine ⟨_, rfl, ?_, ?_, ?_, ?_, ?_⟩
  · intro _ hc; simp [hc]
  · intro _ hc; simp [hc]
  · intro _ hc; simp [hc]
  · intro _ hc; simp [hc]
  · intro _ hc; simp [hc]

def yamlWrongTyped : Yaml :=
  Yaml.obj [("name", Yaml.str "w"), ("description", Yaml.num 1),
    ("tools", Yaml.str "x"), ("model", Yaml.bool true),
    ("disabled", Yaml.str "yes"), ("created_by", Yaml.arr [])]

def loadWrongTyped : String → Option Yaml :=
  fun s => if s == "H" then some yamlWrongTyped else none

/-- Witness for C5: a document whose five optional fields are all present
with wrong shapes still parses, with every such field dropped. -/
theorem lenient_field_coercion_witness :
    ∃ m, parseAgentContent loadWrongTyped "/w.md" "---\nH\n---\nB" = some m ∧
      m.description = "" ∧ m.tools = none ∧ m.model = none ∧
      m.disabled = none ∧ m.created_by = none := by
  obtain ⟨m, h1, h2, h3, h4, h5, h6⟩ :=
    lenient_field_coercion loadWrongTyped "/w.md" "---\nH\n---\nB" "H" "B" "w"
      yamlWrongTyped rfl rfl rfl rfl
  exact ⟨m, h1, h2 rfl rfl, h3 rfl rfl, h4 rfl rfl, h5 rfl rfl, h6 rfl rfl⟩

def envC3 : Env :=
  { resolve := fun s => s
  , statIsDir := fun d => if d == "/u" then some true else none
  , globMd := fun d => if d == "/u" then some ["/u/bad.md"] else some []
  , read := fun f =>
      if f == "/u/bad.md" then some "---\nname: bad name!\n---\nBody" else none
  , load := fun s =>
      if s == "name: bad name!" then
        some (Yaml.obj [("name", Yaml.str "bad name!")])
      else none }

/-- C3 counterexample: a discovery pass over a file whose name holds a space
and an exclamation mark completes with that entry in the resolved registry,
although the name does not match `[A-Za-z0-9_-]+`; no well-formedness check
happens during discovery. -/
theorem name_pattern_counterexample :
    discoverAgentsMethod envC3 "/u" "/p" [] =
      [{ name := "bad name!", description := "", location := "/u/bad.md",
         body := "Body" }] ∧
      isValidAgentName "bad name!" = false := ⟨by decide, by decide⟩

/-- C3 amended: during discovery only string-ness of the name is required (a
file whose loaded name is any string contributes an entry with exactly that
name), while the identifier pattern `[A-Za-z0-9_-]+` is enforced only by the
create command's gate, which rejects every name holding a character outside
the class. -/
theorem discovery_accepts_any_string_name (load : String → Option Yaml)
    (filePath content fm rest nm : String) (v : Yaml)
    (hm : frontmatterMatch content = some (fm, rest))
    (hl : load fm = some v)
    (ho : jsTruthyObject v = true)
    (hn : v.getField "name" = some (Yaml.str nm)) :
    (∃ m, parseAgentContent load filePath content = some m ∧ m.name = nm) ∧
      (nm.data.any (fun c => !nameCharOk c) = true →
        isValidAgentName nm = false) := by
  constructor
  · unfold parseAgentContent
    simp only [hm, hl, hn]
    rw [if_pos ho]
    exact ⟨_, rfl, rfl⟩
  · intro hbad
    have hall : nm.data.all nameCharOk = false := by
      apply Bool.eq_false_iff.mpr
      intro hallt
      rcases List.any_eq_true.mp hbad with ⟨c, hc, hcbad⟩
      rw [List.all_eq_true] at hallt
      rw [hallt c hc] at hcbad
      simp at hcbad
    unfold isValidAgentName
    rw [hall, Bool.and_false]

def yamlSlashName : Yaml := Yaml.obj [("name", Yaml.str "bad/name")]

def loadSlashName : String → Option Yaml :=
  fun s => if s == "name: bad/name" then some yamlSlashName else none

/-- Witness for the amended C3: a name holding a slash is accepted by the
parser and rejected by the create gate. -/
theorem discovery_accepts_any_string_name_witness :
    (∃ m, parseAgentContent loadSlashName "/x.md"
        "---\nname: bad/name\n---\nB" = some m ∧ m.name = "bad/name") ∧
      isValidAgentName "bad/name" = false := by
  have h := discovery_accepts_any_string_name loadSlashName "/x.md"
    "---\nname: bad/name\n---\nB" "name: bad/name" "B" "bad/name" yamlSlashName
    rfl rfl rfl rfl
  exact ⟨h.1, h.2 (by decide)⟩

def mOldC2 : AgentMetadata :=
  { name := "old", description := "stale", location := "/old.md", body := "old" }

def envC2 : Env :=
  { resolve := fun s => s
  , statIsDir := fun d => if d == "/u" || d == "/p" then some true else none
  , globMd := fun d =>
      if d == "/u" then some ["/u/a.md"]
      else if d == "/p" then some ["/p/b.md"] else some []
  , read := fun f =>
      if f == "/u/a.md" then some "---\nname: alpha\n---\nA"
      else if f == "/p/b.md" then some "---\nname: beta\n---\nB" else none
  , load := fun s =>
      if s == "name: alpha" then some (Yaml.obj [("name", Yaml.str "alpha")])
      else if s == "name: beta" then some (Yaml.obj [("name", Yaml.str "beta")])
      else none }

def envC2glob : Env := { envC2 with globMd := fun _ => none }

def mAlphaC2 : AgentMetadata :=
  { name := "alpha", description := "", location := "/u/a.md", body := "A" }

def mBetaC2 : AgentMetadata :=
  { name := "beta", description := "", location := "/p/b.md", body := "B" }

/-- C2 counterexample: one discover() call assigns the registry three times
(clear, user-tier merge, project-tier merge), so a reader at a suspension
point can observe the cleared state or the user-tier-only state, neither of
which equals the prior or final registry; and when scanning fails (glob
errors on every directory) the prior contents are not retained: the registry
ends empty. -/
theorem atomic_replacement_counterexample :
    discoverAgentsStates envC2 "/u" "/p" [mOldC2] =
      [[mOldC2], [], [mAlphaC2], [mAlphaC2, mBetaC2]] ∧
      [mAlphaC2] ≠ ([mOldC2] : List AgentMetadata) ∧
      [mAlphaC2] ≠ [mAlphaC2, mBetaC2] ∧
      (([] : List AgentMetadata) ≠ [mOldC2]) ∧
      discoverAgentsMethod envC2glob "/u" "/p" [mOldC2] = [] :=
  ⟨by decide, by decide, by decide, by decide, by decide⟩

/-- C2 amended: discover() clears the registry at the start (the second
observable state is always the empty registry) and merges tier by tier; an
I/O failure while scanning the project tier leaves the user tier's merged
entries intact — the failed tier merely contributes nothing. -/
theorem tier_failure_isolation (env : Env) (userDir projectDir : String)
    (prior : List AgentMetadata)
    (hglob : env.globMd (env.resolve projectDir) = none) :
    (discoverAgentsStates env userDir projectDir prior).get? 1 = some [] ∧
      discoverAgentsMethod env userDir projectDir prior =
        registryAfterUser env userDir := by
  refine ⟨rfl, ?_⟩
  unfold discoverAgentsMethod projectAgentsOf discoverAgentsInternal runDiscovery
  cases hs : env.statIsDir (env.resolve projectDir) with
  | none =>
    simp only [scanDirs, hs]
    exact addPrec_nil_of_nodup _ (addPrec_names_nodup _ _)
  | some b =>
    cases b with
    | false =>
      simp only [scanDirs, hs]
      exact addPrec_nil_of_nodup _ (addPrec_names_nodup _ _)
    | true =>
      simp only [scanDirs, hs, hglob]
      exact addPrec_nil_of_nodup _ (addPrec_names_nodup _ _)

/-- Witness for the amended C2: the failing environment from the
counterexample. -/
theorem tier_failure_isolation_witness :
    (discoverAgentsStates envC2glob "/u" "/p" [mOldC2]).get? 1 = some [] ∧
      discoverAgentsMethod envC2glob "/u" "/p" [mOldC2] =
        registryAfterUser envC2glob "/u" :=
  tier_failure_isolation envC2glob "/u" "/p" [mOldC2] rfl

def envC8 : Env :=
  { resolve := fun s => s
  , statIsDir := fun d => if d == "/root/.gemini/agents" then some true else none
  , globMd := fun d =>
      if d == "/root/.gemini/agents" then some ["/root/.gemini/agents/bad.md"]
      else some []
  , read := fun f =>
      if f == "/root/.gemini/agents/bad.md" then some "Invalid content" else none
  , load := fun _ => none }

/-- C8 counterexample: when both tiers resolve to the same directory (the
project root is the home directory) and its single file fails to parse, that
file's absolute path is handed to the parser twice in one discover() call,
because only successfully parsed locations are recorded as seen. -/
theorem dedup_counterexample :
    discoverParseAttempts envC8 "/root/.gemini/agents" "/root/.gemini/agents" =
      ["/root/.gemini/agents/bad.md", "/root/.gemini/agents/bad.md"] ∧
      ¬ (discoverParseAttempts envC8 "/root/.gemini/agents"
          "/root/.gemini/agents").Nodup :=
  ⟨by decide, by decide⟩

/-- C8 amended: within one scan pass each absolute file path is successfully
parsed at most once — the agent list returned by any
`discoverAgentsInternal` call carries pairwise-distinct locations (a file
that fails to parse is not marked seen and may be handed to the parser
again, but it never contributes an entry). -/
theorem unique_parse_locations (env : Env) (agents : List AgentMetadata)
    (paths : List String) :
    ((discoverAgentsInternal env agents paths).map (fun m => m.location)).Nodup :=
  (scanDirs_inv env paths _ ⟨by simp, by simp⟩).1
